import Mathlib

/-!
Verification of the family-tree component (`src/components/family/FamilyTree.tsx`):
a shallow embedding of the tree-reconstruction routine `buildTree`, the
fetch routine `fetchMembers`, the asset-cleanup helper `deleteImageFromStorage`
and the deletion handler `handleDeleteMember`, together with theorems about
the behaviour of those routines.
-/

namespace FamilyTree

/-- A member record, as read from the `familyMembers` collection.  Only the
fields that the component logic inspects are modelled: `id`, `parentId`,
`spouseId`, `imageUrl` and `createdBy`.  Optional string fields are `Option
String`; the source distinguishes JavaScript-falsy values (absent or empty
string), which the embedding spells out explicitly at each use site. -/
structure FamilyMember where
  id : String
  parentId : Option String := none
  spouseId : Option String := none
  imageUrl : Option String := none
  createdBy : Option String := none
deriving DecidableEq, Repr

/-- The derived view node produced by `buildTree`: a member, its recursively
collected children, and the optionally resolved spouse record. -/
inductive TreeNode where
  | mk (member : FamilyMember) (children : List TreeNode) (spouse : Option FamilyMember)
deriving Repr

/-- The member wrapped by a node. -/
def TreeNode.member : TreeNode → FamilyMember
  | .mk m _ _ => m

/-- The child nodes of a node. -/
def TreeNode.children : TreeNode → List TreeNode
  | .mk _ cs _ => cs

/-- The resolved spouse of a node, if any. -/
def TreeNode.spouse : TreeNode → Option FamilyMember
  | .mk _ _ s => s

mutual
/-- All members emitted in primary (root-or-descendant) positions of a tree:
the member of the node itself followed by the members of its child subtrees. -/
def TreeNode.emit : TreeNode → List FamilyMember
  | .mk m cs _ => m :: emitForest cs

/-- All members emitted in primary positions across a list of trees. -/
def emitForest : List TreeNode → List FamilyMember
  | [] => []
  | t :: ts => t.emit ++ emitForest ts
end

/-- The ids of the members emitted by a list of trees. -/
def emitIds (ts : List TreeNode) : List String :=
  (emitForest ts).map (·.id)

/-- The `processed` bookkeeping set of `buildTree`, modelled as a list of ids
queried through `List.contains`; `addId` is `Set.prototype.add` (adding an
id already present leaves the set unchanged). -/
def addId (processed : List String) (x : String) : List String :=
  if processed.contains x then processed else x :: processed

/-- The `memberMap` lookup of `buildTree`: the map is populated by iterating
over `members` with `set`, so for duplicate ids the last occurrence wins. -/
def mapGet (members : List FamilyMember) (k : String) : Option FamilyMember :=
  members.foldl (fun acc m => if m.id = k then some m else acc) none

/-- JavaScript truthiness of an optional string field: absent (`undefined`)
and the empty string are falsy. -/
def truthy : Option String → Bool
  | none => false
  | some s => !(s = "")

/-- The children snapshot taken by `buildNode` on entry:
`members.filter(m => m.parentId === member.id && !processed.has(m.id))`. -/
def childSnapshot (members : List FamilyMember) (member : FamilyMember)
    (processed : List String) : List FamilyMember :=
  members.filter
    (fun m => decide (m.parentId = some member.id) && !(processed.contains m.id))

/-- The spouse resolution of `buildNode`:
`member.spouseId ? memberMap.get(member.spouseId) : undefined`. -/
def resolveSpouse (members : List FamilyMember) (member : FamilyMember) :
    Option FamilyMember :=
  match member.spouseId with
  | none => none
  | some sid => if sid = "" then none else mapGet members sid

mutual
/-- The inner `buildNode` closure of `buildTree` (FamilyTree.tsx lines 60-75),
fuelled.  It snapshots the children (`members.filter(m => m.parentId ===
member.id && !processed.has(m.id))`), recursively builds them while
threading the `processed` set, resolves the spouse through `memberMap` when
`spouseId` is truthy, and returns the node together with the updated
`processed` set.  `none` signals fuel exhaustion (never reached with the
fuel supplied by `buildTree`, as proved below). -/
def buildNodeF (members : List FamilyMember) :
    Nat → FamilyMember → List String → Option (TreeNode × List String)
  | 0, _, _ => none
  | fuel + 1, member, processed =>
    match buildChildrenF members fuel (childSnapshot members member processed) processed with
    | none => none
    | some (children, out) =>
      some (TreeNode.mk member children (resolveSpouse members member), out)

/-- The `filter(...).map(...)` / `filter(...).forEach(...)` loops of
`buildTree`: the snapshot list is traversed in order, the id of each element
is added to `processed` (`processed.add(child.id)`) and the element is then
built, threading the `processed` set through the loop.  The same shape
serves both the children loop (lines 61-66) and the roots loop (lines
77-82) of the source.  Fuel is consumed both per node and per list step so
that the recursion is structural in the fuel argument. -/
def buildChildrenF (members : List FamilyMember) :
    Nat → List FamilyMember → List String → Option (List TreeNode × List String)
  | _, [], processed => some ([], processed)
  | 0, _ :: _, _ => none
  | fuel + 1, c :: rest, processed =>
    match buildNodeF members fuel c (addId processed c.id) with
    | none => none
    | some (node, out1) =>
      match buildChildrenF members fuel rest out1 with
      | none => none
      | some (nodes, out2) => some (node :: nodes, out2)
end

/-- The roots snapshot of `buildTree` (lines 77-78): the members whose
`parentId` is falsy (`!member.parentId`) and whose id is not in the
`processed` set, which is still empty when the filter runs. -/
def rootSnapshot (members : List FamilyMember) : List FamilyMember :=
  members.filter
    (fun m => !(truthy m.parentId) && !(([] : List String).contains m.id))

/-- The `buildTree` routine (FamilyTree.tsx lines 53-85): run the roots loop
on the root snapshot with an initially empty `processed` set and return the
accumulated root nodes.  The fuel `(members.length + 1)^2` is proved
sufficient below, so the result is always `some`. -/
def buildTree (members : List FamilyMember) : Option (List TreeNode) :=
  (buildChildrenF members ((members.length + 1) * (members.length + 1))
    (rootSnapshot members) []).map (·.1)

/-! ### Member lifecycle controller -/

/-- The component state touched by `fetchMembers`: the in-memory member
collection and the loading flag. -/
structure ComponentState where
  members : List FamilyMember
  loading : Bool
deriving DecidableEq, Repr

/-- The `fetchMembers` routine (FamilyTree.tsx lines 30-51), as a pure state
transformer over the backend answer.  Without a current user it only clears
the loading flag.  On a successful query it replaces the member collection
with the fetched documents; on a backend error the catch block only logs,
so the member collection is left untouched; the finally block clears the
loading flag on every path.  The function is total: no exception escapes. -/
def fetchMembers (hasCurrentUser : Bool) (st : ComponentState)
    (backend : Except String (List FamilyMember)) : ComponentState :=
  if !hasCurrentUser then { st with loading := false }
  else
    match backend with
    | .ok docs => { members := docs, loading := false }
    | .error _ => { st with loading := false }

/-- An external-store call attempted by the deletion flow: deletion of a
binary asset at a storage path, or deletion of a member record by id. -/
inductive StoreEffect where
  | assetDelete (path : String)
  | recordDelete (memberId : String)
deriving DecidableEq, Repr

/-- The user notification raised by the deletion flow. -/
inductive DeleteAlert where
  | noPermission
  | hasChildren
  | deleteFailed
deriving DecidableEq, Repr

/-- Acting identity as exposed by the authorization context: a uid and an
administrator flag; an absent profile is `none` at the use sites. -/
structure UserData where
  uid : String
  isAdmin : Bool
deriving DecidableEq, Repr

/-- Whether `pat` occurs as a contiguous run inside `s`
(`String.prototype.includes`). -/
def containsSub (pat : List Char) : List Char → Bool
  | [] => decide (pat = [])
  | c :: cs => pat.isPrefixOf (c :: cs) || containsSub pat cs

/-- Scan for the scheme separator `://` and return the characters after it,
or `none` when the separator is absent. -/
def afterSchemeSep : List Char → Option (List Char)
  | [] => none
  | ':' :: '/' :: '/' :: rest => some rest
  | _ :: rest => afterSchemeSep rest

/-- Modelled from the spec: the external URL parser used by the asset
cleanup (`new URL(imageUrl).pathname`) is an external collaborator; the
spec describes the asset reference as a URL whose path segment is
percent-decoded to recover the object key.  This model extracts the path
segment of an absolute URL: the text from the first slash after the
scheme-and-authority part up to (and excluding) the first question mark or
hash, `/` when the authority is not followed by a path, and `none` (the
constructor throws, the source catches) when no scheme separator exists. -/
def urlPathname (s : String) : Option (List Char) :=
  match afterSchemeSep s.toList with
  | none => none
  | some rest =>
    match rest.dropWhile (fun c => !(c = '/')) with
    | [] => some ['/']
    | path => some (path.takeWhile (fun c => !(c = '?') && !(c = '#')))

/-- The characters strictly before the last question mark of `t`, or `none`
when `t` has no question mark. -/
def beforeLastQ : List Char → Option (List Char)
  | [] => none
  | c :: cs =>
    match beforeLastQ cs with
    | some pre => some (c :: pre)
    | none => if c = '?' then some [] else none

/-- The regular-expression match `pathname.match(/\/o\/(.+)\?/)` of the
asset cleanup: the leftmost position at which `/o/` is followed by at least
one character and then a question mark; the greedy group captures
everything between `/o/` and the last question mark after it.  Returns the
captured group. -/
def matchODir : List Char → Option (List Char)
  | [] => none
  | c :: cs =>
    if ['/', 'o', '/'].isPrefixOf (c :: cs) then
      match beforeLastQ ((c :: cs).drop 3) with
      | some cap => if cap = [] then matchODir cs else some cap
      | none => matchODir cs
    else matchODir cs

/-- Numeric value of a hexadecimal digit. -/
def hexVal (c : Char) : Option Nat :=
  if '0' ≤ c ∧ c ≤ '9' then some (c.toNat - '0'.toNat)
  else if 'a' ≤ c ∧ c ≤ 'f' then some (c.toNat - 'a'.toNat + 10)
  else if 'A' ≤ c ∧ c ≤ 'F' then some (c.toNat - 'A'.toNat + 10)
  else none

/-- Modelled from the spec: `decodeURIComponent` is an external builtin; the
spec says the path segment is percent-decoded.  Percent-escapes `%XY` are
replaced by the character with code `16 * X + Y`; other characters pass
through. -/
def percentDecode : List Char → List Char
  | '%' :: a :: b :: rest =>
    match hexVal a, hexVal b with
    | some x, some y => Char.ofNat (16 * x + y) :: percentDecode rest
    | _, _ => '%' :: percentDecode (a :: b :: rest)
  | c :: rest => c :: percentDecode rest
  | [] => []

/-- The `deleteImageFromStorage` helper (FamilyTree.tsx lines 87-101),
returning the asset-store calls it attempts.  A falsy url or a url without
the substring `firebase` is ignored; then the url is parsed (a parse
failure is caught and logged), the pathname is matched against
`/\/o\/(.+)\?/`, and only on a match is the percent-decoded capture deleted
from storage.  Errors of the delete itself are caught inside the helper,
so the helper never throws and the attempted-call list does not depend on
the outcome of the asset-store call. -/
def deleteImageFromStorage (imageUrl : String) : List StoreEffect :=
  if imageUrl = "" then []
  else if !(containsSub "firebase".toList imageUrl.toList) then []
  else
    match urlPathname imageUrl with
    | none => []
    | some pathname =>
      match matchODir pathname with
      | none => []
      | some cap => [StoreEffect.assetDelete (String.mk (percentDecode cap))]

/-- Result of one run of the deletion flow: the external-store calls
attempted in order, the notification shown to the user (if any), the
resulting persisted member collection, and whether the success state was
reached. -/
structure DeleteOutcome where
  effects : List StoreEffect
  alert : Option DeleteAlert
  store : List FamilyMember
  success : Bool
deriving DecidableEq, Repr

/-- The permission check of `handleDeleteMember` (line 108):
`userData?.isAdmin || userData?.uid === memberToDelete.createdBy`.  Optional
chaining on an absent profile yields `undefined` on the left of `===`, and
`createdBy` may itself be absent, so the comparison is between optional
strings: two absent values compare equal. -/
def canDelete (userData : Option UserData) (memberToDelete : FamilyMember) : Bool :=
  (match userData with | some u => u.isAdmin | none => false)
    || decide (userData.map UserData.uid = memberToDelete.createdBy)

/-- The asset-cleanup step of the deletion flow (lines 124-127): the helper
runs only when `imageUrl` is truthy. -/
def assetCleanup (memberToDelete : FamilyMember) : List StoreEffect :=
  match memberToDelete.imageUrl with
  | none => []
  | some url => if url = "" then [] else deleteImageFromStorage url

/-- The `handleDeleteMember` routine (FamilyTree.tsx lines 103-157) as a
pure function.  `storeMembers` is the member collection (both the in-memory
snapshot the checks read and the persisted collection the record delete
acts on, identical after a fetch); `recordDeleteOk` is whether the
`deleteDoc` call succeeds.  The target is looked up by id (silent return
when absent); the permission check `canDelete` runs first, then the
children check (`members.some(m => m.parentId === memberId)`); only then
are the asset cleanup (when `imageUrl` is truthy) and the record delete
attempted, in that order.  The spouse block of the source (lines 129-136)
performs no action and is therefore absent from the model.  A failing
record delete leaves the store unchanged and alerts; a successful one
removes exactly the target record. -/
def handleDeleteMember (storeMembers : List FamilyMember) (userData : Option UserData)
    (memberId : String) (recordDeleteOk : Bool) : DeleteOutcome :=
  match storeMembers.find? (fun m => decide (m.id = memberId)) with
  | none => { effects := [], alert := none, store := storeMembers, success := false }
  | some memberToDelete =>
    if !(canDelete userData memberToDelete) then
      { effects := [], alert := some .noPermission, store := storeMembers, success := false }
    else if storeMembers.any (fun m => decide (m.parentId = some memberId)) then
      { effects := [], alert := some .hasChildren, store := storeMembers, success := false }
    else
      if recordDeleteOk then
        { effects := assetCleanup memberToDelete ++ [StoreEffect.recordDelete memberId],
          alert := none,
          store := storeMembers.filter (fun m => !(decide (m.id = memberId))), success := true }
      else
        { effects := assetCleanup memberToDelete ++ [StoreEffect.recordDelete memberId],
          alert := some .deleteFailed, store := storeMembers, success := false }

/-! ### Proof-support definitions for the tree builder -/

/-- Whether the chain of `parentId` references starting at `m` reaches,
within `fuel` steps, a member whose `parentId` is falsy (the only members
`buildTree` treats as roots).  A dangling reference or an exhausted fuel
yields `false`; parent resolution is by id lookup in the collection. -/
def reachesRootB (members : List FamilyMember) : Nat → FamilyMember → Bool
  | 0, _ => false
  | k + 1, m =>
    match m.parentId with
    | none => true
    | some p =>
      if p = "" then true
      else
        match members.find? (fun q => decide (q.id = p)) with
        | none => false
        | some q => reachesRootB members k q

/-- The number of distinct member ids not yet in the `processed` set; the
measure that shrinks along the recursion of `buildNodeF`. -/
def unplaced (members : List FamilyMember) (s : List String) : Nat :=
  ((members.map FamilyMember.id).toFinset.filter
    (fun i => s.contains i = false)).card

/-- Invariants of a successful `buildNodeF members fuel member processed =
some (node, out)` call, proved below by induction on the fuel. -/
structure NodeFacts (members : List FamilyMember) (member : FamilyMember)
    (processed : List String) (node : TreeNode) (out : List String) : Prop where
  head : node.member = member
  mono : ∀ x, processed.contains x = true → out.contains x = true
  outBound : ∀ x, out.contains x = true →
    processed.contains x = true ∨ x ∈ node.emit.map FamilyMember.id
  emitIn : processed.contains member.id = true →
    ∀ x ∈ node.emit.map FamilyMember.id, out.contains x = true
  descFresh : ∀ m2 ∈ emitForest node.children, processed.contains m2.id = false
  descMem : ∀ m2 ∈ emitForest node.children, m2 ∈ members
  descParent : ∀ m2 ∈ emitForest node.children,
    ∃ q, m2.parentId = some q ∧ q ∈ node.emit.map FamilyMember.id
  childComplete : ∀ p ∈ node.emit, ∀ m ∈ members,
    m.parentId = some p.id → out.contains m.id = true

/-- Invariants of a successful `buildChildrenF members fuel cs processed =
some (nodes, out)` call, proved below by induction on the fuel. -/
structure ChildrenFacts (members : List FamilyMember) (cs : List FamilyMember)
    (processed : List String) (nodes : List TreeNode) (out : List String) : Prop where
  heads : nodes.map TreeNode.member = cs
  mono : ∀ x, processed.contains x = true → out.contains x = true
  outBound : ∀ x, out.contains x = true →
    processed.contains x = true ∨ x ∈ emitIds nodes
  emitIn : ∀ x ∈ emitIds nodes, out.contains x = true
  emitFresh : ∀ m2 ∈ emitForest nodes, m2 ∈ cs ∨ processed.contains m2.id = false
  emitMem : ∀ m2 ∈ emitForest nodes, m2 ∈ cs ∨ m2 ∈ members
  emitParent : ∀ m2 ∈ emitForest nodes,
    m2 ∈ cs ∨ ∃ q, m2.parentId = some q ∧ q ∈ emitIds nodes
  childComplete : ∀ p ∈ emitForest nodes, ∀ m ∈ members,
    m.parentId = some p.id → out.contains m.id = true

/-! ### Concrete inputs used by the scenario theorems -/

/-- Member A of the §8 scenario: no parent. -/
def memA : FamilyMember := { id := "A" }

/-- Member B of the §8 scenario: child of A. -/
def memB : FamilyMember := { id := "B", parentId := some "A" }

/-- Member C of the §8 scenario: child of A, spouse reference to D. -/
def memC : FamilyMember := { id := "C", parentId := some "A", spouseId := some "D" }

/-- Member D of the §8 scenario: no parent, referenced as spouse by C. -/
def memD : FamilyMember := { id := "D" }

/-- The §8 scenario collection `[A, B, C, D]`. -/
def scenarioMembers : List FamilyMember := [memA, memB, memC, memD]

/-- A two-member parent cycle: each member names the other as parent, so the
collection has no parentless member. -/
def cycleMembers : List FamilyMember :=
  [{ id := "A", parentId := some "B" }, { id := "B", parentId := some "A" }]

/-- A single member whose `parentId` does not resolve to any member. -/
def danglingMembers : List FamilyMember := [{ id := "A", parentId := some "Z" }]

/-- A root member next to a member with a dangling `parentId`. -/
def danglingPairMembers : List FamilyMember :=
  [{ id := "R" }, { id := "A", parentId := some "Z" }]

/-- A small well-formed collection (root plus one child) used as a witness
input. -/
def smallTreeMembers : List FamilyMember :=
  [{ id := "A" }, { id := "B", parentId := some "A" }]

/-- A download URL of the shape produced by the asset store: the object key
sits between `/o/` and the query string, percent-encoded. -/
def firebaseUrl : String :=
  "https://firebasestorage.googleapis.com/v0/b/app-1234.appspot.com/o/images%2Fpic.jpg?alt=media&token=abc"

/-- A member carrying an asset-store image URL, created by user u1. -/
def memWithImage : FamilyMember :=
  { id := "T", imageUrl := some firebaseUrl, createdBy := some "u1" }

/-- A spouse pair used by the frame-condition witness: the target X and the
counterpart Y point at each other. -/
def memX : FamilyMember := { id := "X", spouseId := some "Y", createdBy := some "u1" }

/-- Counterpart of `memX`; its `spouseId` keeps pointing at X after X is
deleted. -/
def memY : FamilyMember := { id := "Y", spouseId := some "X", createdBy := some "u2" }

/-- A member with neither `createdBy` nor children, used for the
absent-identity authorization theorem. -/
def memOrphanCreator : FamilyMember := { id := "N" }

/-- A prior component state with a nonempty member collection, used to
refute the claim that a failing fetch empties the collection. -/
def priorState : ComponentState := { members := [memA], loading := false }

/-! ### Basic lemmas -/

/-- Membership form of the Boolean `contains` used for the id sets. -/
theorem contains_iff (s : List String) (x : String) : s.contains x = true ↔ x ∈ s :=
  List.elem_iff

theorem addId_contains_self (s : List String) (x : String) :
    (addId s x).contains x = true := by
  unfold addId
  split
  · assumption
  · exact (contains_iff _ _).mpr (List.mem_cons_self _ _)

theorem addId_mono (s : List String) (x y : String) (h : s.contains y = true) :
    (addId s x).contains y = true := by
  unfold addId
  split
  · exact h
  · exact (contains_iff _ _).mpr (List.mem_cons_of_mem _ ((contains_iff _ _).mp h))

theorem contains_of_addId (s : List String) (x y : String)
    (h : (addId s x).contains y = true) : y = x ∨ s.contains y = true := by
  unfold addId at h
  split at h
  · exact Or.inr h
  · rcases List.mem_cons.mp ((contains_iff _ _).mp h) with h1 | h1
    · exact Or.inl h1
    · exact Or.inr ((contains_iff _ _).mpr h1)

theorem emit_mk (m : FamilyMember) (cs : List TreeNode) (s : Option FamilyMember) :
    (TreeNode.mk m cs s).emit = m :: emitForest cs := by
  simp [TreeNode.emit]

theorem emitForest_nil : emitForest [] = [] := by simp [emitForest]

theorem emitForest_cons (t : TreeNode) (ts : List TreeNode) :
    emitForest (t :: ts) = t.emit ++ emitForest ts := by
  simp [emitForest]

theorem member_mem_emit (t : TreeNode) : t.member ∈ t.emit := by
  cases t with
  | mk m cs s => rw [emit_mk]; exact List.mem_cons_self _ _

theorem mem_emitForest_of_mem {t : TreeNode} {ts : List TreeNode}
    (ht : t ∈ ts) {x : FamilyMember} (hx : x ∈ t.emit) : x ∈ emitForest ts := by
  induction ts with
  | nil => cases ht
  | cons hd tl ih =>
    rw [emitForest_cons]
    rcases List.mem_cons.mp ht with h | h
    · exact List.mem_append_left _ (h ▸ hx)
    · exact List.mem_append_right _ (ih h)

/-- Members of the same collection with equal ids are equal when the ids of
the collection are pairwise distinct. -/
theorem eq_of_id_eq {members : List FamilyMember}
    (hU : (members.map FamilyMember.id).Nodup) {m1 m2 : FamilyMember}
    (h1 : m1 ∈ members) (h2 : m2 ∈ members) (h : m1.id = m2.id) : m1 = m2 :=
  List.inj_on_of_nodup_map hU h1 h2 h

/-! ### The asset cleanup never reaches the asset store

The regular expression of `deleteImageFromStorage` is applied to
`url.pathname`, and a pathname never contains a question mark (the query
string is split off by the URL parser), so the match always fails and
`deleteObject` is unreachable. -/

theorem beforeLastQ_eq_none {t : List Char} (h : '?' ∉ t) :
    beforeLastQ t = none := by
  induction t with
  | nil => rfl
  | cons c cs ih =>
    have hc : ¬ c = '?' := fun hc => h (hc ▸ List.mem_cons_self _ _)
    have hcs : '?' ∉ cs := fun hx => h (List.mem_cons_of_mem _ hx)
    simp [beforeLastQ, ih hcs, hc]

theorem matchODir_eq_none {t : List Char} (h : '?' ∉ t) :
    matchODir t = none := by
  induction t with
  | nil => rfl
  | cons c cs ih =>
    have hcs : '?' ∉ cs := fun hx => h (List.mem_cons_of_mem _ hx)
    have hd : '?' ∉ (c :: cs).drop 3 := fun hx => h (List.drop_subset _ _ hx)
    rw [matchODir, beforeLastQ_eq_none hd]
    split
    · exact ih hcs
    · exact ih hcs

theorem urlPathname_no_q {s : String} {path : List Char}
    (h : urlPathname s = some path) : '?' ∉ path := by
  unfold urlPathname at h
  rcases hs : afterSchemeSep s.toList with _ | rest <;> rw [hs] at h
  · cases h
  · dsimp only at h
    rcases hd : rest.dropWhile (fun c => !(c = '/')) with _ | ⟨p0, ps⟩ <;>
      rw [hd] at h <;> injection h with h2 <;> subst h2
    · decide
    · intro hq
      have := List.mem_takeWhile_imp hq
      simp at this

/-- No call of `deleteImageFromStorage` ever reaches the asset store: the
pathname produced by the URL parser contains no question mark, so the
pattern `/\/o\/(.+)\?/` never matches and no `deleteObject` call is made,
whatever the url. -/
theorem deleteImageFromStorage_no_calls (url : String) :
    deleteImageFromStorage url = [] := by
  unfold deleteImageFromStorage
  split
  · rfl
  · split
    · rfl
    · cases hp : urlPathname url with
      | none => rfl
      | some path =>
        dsimp only
        rw [matchODir_eq_none (urlPathname_no_q hp)]

/-- The asset-cleanup step of the deletion flow attempts no store call for
any member. -/
theorem assetCleanup_nil (t : FamilyMember) : assetCleanup t = [] := by
  unfold assetCleanup
  split
  · rfl
  · split
    · rfl
    · exact deleteImageFromStorage_no_calls _

/-- The permission check in terms of propositions: it passes exactly when
the identity is flagged as administrator or its (optional) uid equals the
(optional) `createdBy` of the target. -/
theorem canDelete_iff (userData : Option UserData) (t : FamilyMember) :
    canDelete userData t = true ↔
      ((∃ u, userData = some u ∧ u.isAdmin = true) ∨
        userData.map UserData.uid = t.createdBy) := by
  cases userData with
  | none => simp [canDelete]
  | some u => simp [canDelete]

/-! ### Claims about the member lifecycle controller -/

/-- C3, counterexample: a failing fetch does not empty the visible member
collection — from a nonempty prior in-memory collection, a simulated
backend error leaves the collection nonempty, contradicting the claim that
the resulting collection is empty for every prior collection. -/
theorem C3_fetch_error_not_empty :
    (fetchMembers true priorState (Except.error "backend")).members ≠ [] := by
  decide

/-- C3, amended: when fetch-all fails with a backend error, the in-memory
member collection is left unchanged (so it is empty exactly when it was
empty before, as in the initial state) and the loading flag is cleared; no
exception propagates to the caller, as `fetchMembers` is a total
function. -/
theorem C3_fetch_error_keeps_collection (st : ComponentState) (e : String) :
    fetchMembers true st (Except.error e) =
      { members := st.members, loading := false } := rfl

/-- C5: for every member of the collection that has at least one child and
for every caller identity, deletion is refused before any irreversible
side effect: no store call is attempted, the stored collection is
unchanged, the user is notified, and the success state is never reached. -/
theorem C5_children_refusal (storeMembers : List FamilyMember)
    (userData : Option UserData) (memberId : String) (recordDeleteOk : Bool)
    (htarget : ∃ t ∈ storeMembers, t.id = memberId)
    (hchild : ∃ c ∈ storeMembers, c.parentId = some memberId) :
    (handleDeleteMember storeMembers userData memberId recordDeleteOk).effects = [] ∧
      (handleDeleteMember storeMembers userData memberId recordDeleteOk).store =
        storeMembers ∧
      (handleDeleteMember storeMembers userData memberId recordDeleteOk).alert ≠ none ∧
      (handleDeleteMember storeMembers userData memberId recordDeleteOk).success =
        false := by
  obtain ⟨t, ht, hid⟩ := htarget
  obtain ⟨c, hc, hcp⟩ := hchild
  cases hf : storeMembers.find? (fun m => decide (m.id = memberId)) with
  | none =>
    exact absurd (by simpa using hid) (by simpa using List.find?_eq_none.mp hf t ht)
  | some t2 =>
    have hany : storeMembers.any (fun m => decide (m.parentId = some memberId)) = true :=
      List.any_eq_true.mpr ⟨c, hc, by simpa using hcp⟩
    cases hcd : canDelete userData t2 <;>
      simp [handleDeleteMember, hf, hcd, hany]

/-- C5, witness: deleting the root of a two-member tree (root A with child
B) is refused with a notification and without store calls, even for an
administrator caller. -/
theorem C5_children_refusal_witness :
    (handleDeleteMember smallTreeMembers (some { uid := "zz", isAdmin := true })
        "A" true).effects = [] ∧
      (handleDeleteMember smallTreeMembers (some { uid := "zz", isAdmin := true })
        "A" true).store = smallTreeMembers ∧
      (handleDeleteMember smallTreeMembers (some { uid := "zz", isAdmin := true })
        "A" true).alert ≠ none ∧
      (handleDeleteMember smallTreeMembers (some { uid := "zz", isAdmin := true })
        "A" true).success = false :=
  C5_children_refusal smallTreeMembers (some { uid := "zz", isAdmin := true }) "A" true
    (by decide) (by decide)

/-- C6: when the target member is found, the deletion flow proceeds past the
authorization check exactly when the acting identity is flagged as
administrator or its optional uid equals the optional `createdBy` of the
target (absent values comparing equal); when neither holds, the operation
aborts with the permission notification and no side effects, the store
unchanged. -/
theorem C6_authorization_gate (storeMembers : List FamilyMember)
    (userData : Option UserData) (memberId : String) (recordDeleteOk : Bool)
    (target : FamilyMember)
    (hfind : storeMembers.find? (fun m => decide (m.id = memberId)) = some target) :
    (((handleDeleteMember storeMembers userData memberId recordDeleteOk).alert ≠
        some DeleteAlert.noPermission) ↔
      ((∃ u, userData = some u ∧ u.isAdmin = true) ∨
        userData.map UserData.uid = target.createdBy)) ∧
    (¬ ((∃ u, userData = some u ∧ u.isAdmin = true) ∨
        userData.map UserData.uid = target.createdBy) →
      handleDeleteMember storeMembers userData memberId recordDeleteOk =
        { effects := [], alert := some DeleteAlert.noPermission,
          store := storeMembers, success := false }) := by
  rw [← canDelete_iff]
  cases hcd : canDelete userData target with
  | false =>
    constructor
    · simp [handleDeleteMember, hfind, hcd]
    · intro _
      simp [handleDeleteMember, hfind, hcd]
  | true =>
    have halert : (handleDeleteMember storeMembers userData memberId
        recordDeleteOk).alert ≠ some DeleteAlert.noPermission := by
      simp only [handleDeleteMember, hfind, hcd]
      split
      · simp_all
      · split
        · simp
        · split <;> simp
    exact ⟨iff_of_true halert rfl, fun h => absurd rfl h⟩

/-- C6, witness: with the target created by u1, the caller u2 (not an
administrator, not the creator) is denied with the permission notification
and no side effects. -/
theorem C6_authorization_gate_witness :
    (((handleDeleteMember [memWithImage] (some { uid := "u2", isAdmin := false })
          "T" true).alert ≠ some DeleteAlert.noPermission) ↔
      ((∃ u, (some { uid := "u2", isAdmin := false } : Option UserData) = some u ∧
          u.isAdmin = true) ∨
        (some { uid := "u2", isAdmin := false } : Option UserData).map UserData.uid =
          memWithImage.createdBy)) ∧
    (¬ ((∃ u, (some { uid := "u2", isAdmin := false } : Option UserData) = some u ∧
          u.isAdmin = true) ∨
        (some { uid := "u2", isAdmin := false } : Option UserData).map UserData.uid =
          memWithImage.createdBy) →
      handleDeleteMember [memWithImage] (some { uid := "u2", isAdmin := false })
          "T" true =
        { effects := [], alert := some DeleteAlert.noPermission,
          store := [memWithImage], success := false }) :=
  C6_authorization_gate [memWithImage] (some { uid := "u2", isAdmin := false })
    "T" true memWithImage (by decide)

/-- C7: the deletion of a member whose `imageUrl` is a well-formed
asset-store download URL — with the object key between the path prefix and
the query string — never attempts the asset deletion: only the record
delete reaches the store, because the source matches `/\/o\/(.+)\?/`
against `url.pathname`, which cannot contain a question mark.  This
contradicts the stated ordering (asset delete attempted before record
delete); the record delete still proceeds and succeeds. -/
theorem C7_asset_delete_never_attempted :
    handleDeleteMember [memWithImage] (some { uid := "u1", isAdmin := false })
        "T" true =
      { effects := [StoreEffect.recordDelete "T"], alert := none, store := [],
        success := true } := by
  have h := assetCleanup_nil memWithImage
  simp [handleDeleteMember, canDelete, memWithImage] at h ⊢
  simp [h]

/-- C9: when a delete passes both checks and the record delete succeeds,
the store afterwards is exactly the prior collection minus the target
record: the counterpart member named by the `spouseId` of the target keeps
its record — including its now-dangling `spouseId` field — unchanged, and
every attempted store call touches only the target record or its asset. -/
theorem C9_spouse_record_untouched (storeMembers : List FamilyMember)
    (userData : Option UserData) (memberId : String)
    (target spouse : FamilyMember)
    (hfind : storeMembers.find? (fun m => decide (m.id = memberId)) = some target)
    (href : target.spouseId = some spouse.id)
    (hmem : spouse ∈ storeMembers)
    (hne : ¬ spouse.id = memberId)
    (hauth : canDelete userData target = true)
    (hnochild : storeMembers.any (fun m => decide (m.parentId = some memberId)) = false) :
    (handleDeleteMember storeMembers userData memberId true).store =
        storeMembers.filter (fun m => !(decide (m.id = memberId))) ∧
      spouse ∈ (handleDeleteMember storeMembers userData memberId true).store ∧
      ∀ e ∈ (handleDeleteMember storeMembers userData memberId true).effects,
        e = StoreEffect.recordDelete memberId ∨ ∃ p, e = StoreEffect.assetDelete p := by
  have hout : handleDeleteMember storeMembers userData memberId true =
      { effects := assetCleanup target ++ [StoreEffect.recordDelete memberId],
        alert := none,
        store := storeMembers.filter (fun m => !(decide (m.id = memberId))),
        success := true } := by
    simp [handleDeleteMember, hfind, hauth, hnochild]
  rw [hout, assetCleanup_nil]
  refine ⟨rfl, ?_, ?_⟩
  · exact List.mem_filter.mpr ⟨hmem, by simpa using hne⟩
  · intro e he
    simp at he
    exact Or.inl he

/-- C9, witness: deleting X (spouse pair X and Y pointing at each other, X
created by the caller u1, no children) leaves the record of Y — still
carrying `spouseId = X` — unchanged in the store, and touches only the X
record. -/
theorem C9_spouse_record_untouched_witness :
    (handleDeleteMember [memX, memY] (some { uid := "u1", isAdmin := false })
        "X" true).store = [memX, memY].filter (fun m => !(decide (m.id = "X"))) ∧
      memY ∈ (handleDeleteMember [memX, memY] (some { uid := "u1", isAdmin := false })
        "X" true).store ∧
      ∀ e ∈ (handleDeleteMember [memX, memY] (some { uid := "u1", isAdmin := false })
          "X" true).effects,
        e = StoreEffect.recordDelete "X" ∨ ∃ p, e = StoreEffect.assetDelete p :=
  C9_spouse_record_untouched [memX, memY] (some { uid := "u1", isAdmin := false })
    "X" memX memY (by decide) (by decide) (by decide) (by decide) (by decide) (by decide)

/-- C10: when the target member has no `createdBy` and the acting identity
has no profile (so no uid) and no administrator flag, the authorization
check nevertheless passes — the two absent values compare equal — and,
when the member has no children, deletion proceeds to the side-effect
phase: the record delete is attempted. -/
theorem C10_absent_identity_passes (storeMembers : List FamilyMember)
    (memberId : String) (recordDeleteOk : Bool) (target : FamilyMember)
    (hfind : storeMembers.find? (fun m => decide (m.id = memberId)) = some target)
    (hcb : target.createdBy = none)
    (hnochild : storeMembers.any (fun m => decide (m.parentId = some memberId)) = false) :
    (handleDeleteMember storeMembers none memberId recordDeleteOk).alert ≠
        some DeleteAlert.noPermission ∧
      StoreEffect.recordDelete memberId ∈
        (handleDeleteMember storeMembers none memberId recordDeleteOk).effects := by
  have hcd : canDelete none target = true := by simp [canDelete, hcb]
  cases recordDeleteOk <;> simp [handleDeleteMember, hfind, hcd, hnochild]

/-- C10, witness: a member without `createdBy` and without children is
deleted by a caller without a profile — the record delete is attempted. -/
theorem C10_absent_identity_passes_witness :
    (handleDeleteMember [memOrphanCreator] none "N" true).alert ≠
        some DeleteAlert.noPermission ∧
      StoreEffect.recordDelete "N" ∈
        (handleDeleteMember [memOrphanCreator] none "N" true).effects :=
  C10_absent_identity_passes [memOrphanCreator] "N" true memOrphanCreator
    (by decide) (by decide) (by decide)

/-! ### Concrete-scenario claims about the tree builder -/

/-- C1, counterexample: a nonempty collection with unique ids whose two
members form a parent cycle yields an empty forest — both members are
omitted from every primary position, refuting the claim that every member
is placed exactly once even under cyclic `parentId` references. -/
theorem C1_cycle_drops_members :
    (cycleMembers.map FamilyMember.id).Nodup ∧ cycleMembers ≠ [] ∧
      buildTree cycleMembers = some [] :=
  ⟨by decide, by decide, rfl⟩

/-- C2, counterexample: the single member with a dangling `parentId` is not
treated as a root — the forest is empty, refuting the claim that a member
with an unresolvable `parentId` appears as a root node. -/
theorem C2_dangling_not_root :
    danglingMembers ≠ [] ∧ buildTree danglingMembers = some [] :=
  ⟨by decide, rfl⟩

/-- C4, counterexample: on the §8 scenario the forest has two roots, A and
D — D is placed as a separate root in addition to being resolved as the
spouse of C, refuting the claim that A is the only root and D is not a
root. -/
theorem C4_scenario_two_roots :
    (buildTree scenarioMembers).map (List.map TreeNode.member) = some [memA, memD] :=
  rfl

/-- C4, amended: on the scenario collection the builder returns two roots:
A with children B and C in that order, the spouse of C resolved to the D
record, and D additionally placed as its own (childless, spouseless) root. -/
theorem C4_scenario_forest :
    buildTree scenarioMembers = some
      [TreeNode.mk memA [TreeNode.mk memB [] none, TreeNode.mk memC [] (some memD)] none,
       TreeNode.mk memD [] none] := rfl

/-! ### Invariants of the builder recursion -/

theorem TreeNode.emit_eq (t : TreeNode) :
    t.emit = t.member :: emitForest t.children := by
  cases t with
  | mk m cs s => rw [emit_mk]; rfl

theorem emitIds_nil : emitIds [] = [] := by
  simp [emitIds, emitForest_nil]

theorem emitIds_cons (t : TreeNode) (ts : List TreeNode) :
    emitIds (t :: ts) = t.emit.map FamilyMember.id ++ emitIds ts := by
  simp [emitIds, emitForest_cons]

theorem mem_childSnapshot {members : List FamilyMember} {member m : FamilyMember}
    {processed : List String} :
    m ∈ childSnapshot members member processed ↔
      m ∈ members ∧ m.parentId = some member.id ∧ processed.contains m.id = false := by
  simp [childSnapshot, List.mem_filter, and_assoc]

theorem mem_rootSnapshot {members : List FamilyMember} {m : FamilyMember} :
    m ∈ rootSnapshot members ↔ m ∈ members ∧ truthy m.parentId = false := by
  simp [rootSnapshot, List.mem_filter]

theorem contains_false_of_addId {s : List String} {x y : String}
    (h : (addId s x).contains y = false) : s.contains y = false := by
  cases hc : s.contains y with
  | false => rfl
  | true => rw [addId_mono s x y hc] at h; cases h

/-- The invariants of the builder recursion, by induction on the fuel: both
for the node construction and for the snapshot loop. -/
theorem buildF_facts (members : List FamilyMember) : ∀ fuel : Nat,
    (∀ member processed node out,
      buildNodeF members fuel member processed = some (node, out) →
      NodeFacts members member processed node out) ∧
    (∀ cs processed nodes out,
      buildChildrenF members fuel cs processed = some (nodes, out) →
      ChildrenFacts members cs processed nodes out) := by
  intro fuel
  induction fuel with
  | zero =>
    constructor
    · intro member processed node out h
      simp [buildNodeF] at h
    · intro cs processed nodes out h
      cases cs with
      | nil =>
        simp only [buildChildrenF, Option.some.injEq, Prod.mk.injEq] at h
        obtain ⟨h1, h2⟩ := h
        subst h1; subst h2
        exact { heads := rfl
                mono := fun x hx => hx
                outBound := fun x hx => Or.inl hx
                emitIn := by simp [emitIds_nil]
                emitFresh := by simp [emitForest_nil]
                emitMem := by simp [emitForest_nil]
                emitParent := by simp [emitForest_nil]
                childComplete := by simp [emitForest_nil] }
      | cons c rest => simp [buildChildrenF] at h
  | succ f ih =>
    have nodePart : ∀ member processed node out,
        buildNodeF members (f + 1) member processed = some (node, out) →
        NodeFacts members member processed node out := by
      intro member processed node out h
      simp only [buildNodeF] at h
      rcases hc : buildChildrenF members f (childSnapshot members member processed)
          processed with _ | ⟨children, out1⟩ <;> rw [hc] at h
      · cases h
      · simp only [Option.some.injEq, Prod.mk.injEq] at h
        obtain ⟨h1, h2⟩ := h
        subst h1; subst h2
        have cf := ih.2 _ _ _ _ hc
        have hemit : (TreeNode.mk member children (resolveSpouse members member)).emit =
            member :: emitForest children := emit_mk _ _ _
        have hch : (TreeNode.mk member children (resolveSpouse members member)).children =
            children := rfl
        have hin : ∀ m2 ∈ children.map TreeNode.member, m2 ∈ emitForest children := by
          intro m2 hm2
          obtain ⟨nd, hnd, hndm⟩ := List.mem_map.mp hm2
          exact mem_emitForest_of_mem hnd (hndm ▸ member_mem_emit nd)
        refine ⟨rfl, cf.mono, ?_, ?_, ?_, ?_, ?_, ?_⟩
        · -- outBound
          intro x hx
          rcases cf.outBound x hx with h3 | h3
          · exact Or.inl h3
          · refine Or.inr ?_
            rw [hemit]
            simp only [List.map_cons, List.mem_cons]
            right
            exact h3
        · -- emitIn
          intro hpm x hx
          rw [hemit] at hx
          simp only [List.map_cons, List.mem_cons] at hx
          rcases hx with h3 | h3
          · exact h3 ▸ cf.mono _ hpm
          · exact cf.emitIn x h3
        · -- descFresh
          intro m2 hm2
          rw [hch] at hm2
          rcases cf.emitFresh m2 hm2 with h3 | h3
          · exact (mem_childSnapshot.mp h3).2.2
          · exact h3
        · -- descMem
          intro m2 hm2
          rw [hch] at hm2
          rcases cf.emitMem m2 hm2 with h3 | h3
          · exact (mem_childSnapshot.mp h3).1
          · exact h3
        · -- descParent
          intro m2 hm2
          rw [hch] at hm2
          rcases cf.emitParent m2 hm2 with h3 | h3
          · refine ⟨member.id, (mem_childSnapshot.mp h3).2.1, ?_⟩
            rw [hemit]; simp
          · obtain ⟨q, hq1, hq2⟩ := h3
            refine ⟨q, hq1, ?_⟩
            rw [hemit]
            simp only [List.map_cons, List.mem_cons]
            right
            exact hq2
        · -- childComplete
          intro p hp m hm hpar
          rw [hemit] at hp
          rcases List.mem_cons.mp hp with h3 | h3
          · subst h3
            cases hpc : processed.contains m.id with
            | true => exact cf.mono _ hpc
            | false =>
              have hms : m ∈ childSnapshot members p processed :=
                mem_childSnapshot.mpr ⟨hm, hpar, hpc⟩
              rw [← cf.heads] at hms
              have : m ∈ emitForest children := hin m hms
              exact cf.emitIn m.id (List.mem_map.mpr ⟨m, this, rfl⟩)
          · exact cf.childComplete p h3 m hm hpar
    have childrenPart : ∀ cs processed nodes out,
        buildChildrenF members (f + 1) cs processed = some (nodes, out) →
        ChildrenFacts members cs processed nodes out := by
      intro cs processed nodes out h
      cases cs with
      | nil =>
        simp only [buildChildrenF, Option.some.injEq, Prod.mk.injEq] at h
        obtain ⟨h1, h2⟩ := h
        subst h1; subst h2
        exact { heads := rfl
                mono := fun x hx => hx
                outBound := fun x hx => Or.inl hx
                emitIn := by simp [emitIds_nil]
                emitFresh := by simp [emitForest_nil]
                emitMem := by simp [emitForest_nil]
                emitParent := by simp [emitForest_nil]
                childComplete := by simp [emitForest_nil] }
      | cons c rest =>
        simp only [buildChildrenF] at h
        rcases hn : buildNodeF members f c (addId processed c.id)
            with _ | ⟨node, out1⟩ <;> rw [hn] at h
        · cases h
        · dsimp only at h
          rcases hr : buildChildrenF members f rest out1
              with _ | ⟨nodes2, out2⟩ <;> rw [hr] at h
          · cases h
          · simp only [Option.some.injEq, Prod.mk.injEq] at h
            obtain ⟨h1, h2⟩ := h
            subst h1; subst h2
            have nf := ih.1 _ _ _ _ hn
            have cf := ih.2 _ _ _ _ hr
            have hmono1 : ∀ x, processed.contains x = true → out1.contains x = true :=
              fun x hx => nf.mono x (addId_mono _ _ _ hx)
            have hcid : node.member = c := nf.head
            have hnodeEmit : node.emit = c :: emitForest node.children := by
              rw [TreeNode.emit_eq, hcid]
            refine ⟨?_, ?_, ?_, ?_, ?_, ?_, ?_, ?_⟩
            · -- heads
              simp only [List.map_cons, hcid, cf.heads]
            · -- mono
              exact fun x hx => cf.mono x (hmono1 x hx)
            · -- outBound
              intro x hx
              rcases cf.outBound x hx with h3 | h3
              · rcases nf.outBound x h3 with h4 | h4
                · rcases contains_of_addId _ _ _ h4 with h5 | h5
                  · refine Or.inr ?_
                    rw [emitIds_cons]
                    refine List.mem_append_left _ ?_
                    subst h5
                    rw [← hcid]
                    exact List.mem_map.mpr ⟨node.member, member_mem_emit node, rfl⟩
                  · exact Or.inl h5
                · refine Or.inr ?_
                  rw [emitIds_cons]
                  exact List.mem_append_left _ h4
              · refine Or.inr ?_
                rw [emitIds_cons]
                exact List.mem_append_right _ h3
            · -- emitIn
              intro x hx
              rw [emitIds_cons] at hx
              rcases List.mem_append.mp hx with h3 | h3
              · exact cf.mono x (nf.emitIn (addId_contains_self _ _) x h3)
              · exact cf.emitIn x h3
            · -- emitFresh
              intro m2 hm2
              rw [emitForest_cons] at hm2
              rcases List.mem_append.mp hm2 with h3 | h3
              · rw [hnodeEmit] at h3
                rcases List.mem_cons.mp h3 with h4 | h4
                · exact Or.inl (h4 ▸ List.mem_cons_self _ _)
                · exact Or.inr (contains_false_of_addId (nf.descFresh m2 h4))
              · rcases cf.emitFresh m2 h3 with h4 | h4
                · exact Or.inl (List.mem_cons_of_mem _ h4)
                · cases hpc : processed.contains m2.id with
                  | false => exact Or.inr rfl
                  | true => rw [hmono1 _ hpc] at h4; cases h4
            · -- emitMem
              intro m2 hm2
              rw [emitForest_cons] at hm2
              rcases List.mem_append.mp hm2 with h3 | h3
              · rw [hnodeEmit] at h3
                rcases List.mem_cons.mp h3 with h4 | h4
                · exact Or.inl (h4 ▸ List.mem_cons_self _ _)
                · exact Or.inr (nf.descMem m2 h4)
              · rcases cf.emitMem m2 h3 with h4 | h4
                · exact Or.inl (List.mem_cons_of_mem _ h4)
                · exact Or.inr h4
            · -- emitParent
              intro m2 hm2
              rw [emitForest_cons] at hm2
              rcases List.mem_append.mp hm2 with h3 | h3
              · rw [hnodeEmit] at h3
                rcases List.mem_cons.mp h3 with h4 | h4
                · exact Or.inl (h4 ▸ List.mem_cons_self _ _)
                · obtain ⟨q, hq1, hq2⟩ := nf.descParent m2 h4
                  refine Or.inr ⟨q, hq1, ?_⟩
                  rw [emitIds_cons]
                  exact List.mem_append_left _ hq2
              · rcases cf.emitParent m2 h3 with h4 | h4
                · exact Or.inl (List.mem_cons_of_mem _ h4)
                · obtain ⟨q, hq1, hq2⟩ := h4
                  refine Or.inr ⟨q, hq1, ?_⟩
                  rw [emitIds_cons]
                  exact List.mem_append_right _ hq2
            · -- childComplete
              intro p hp m hm hpar
              rw [emitForest_cons] at hp
              rcases List.mem_append.mp hp with h3 | h3
              · exact cf.mono _ (nf.childComplete p h3 m hm hpar)
              · exact cf.childComplete p h3 m hm hpar
    exact ⟨nodePart, childrenPart⟩

/-- No id is emitted twice: under pairwise-distinct nonempty member ids,
the emitted ids of a node are distinct provided the id of the member being
built is already in `processed`, and the emitted ids of a snapshot loop are
distinct provided the snapshot ids avoid a base set `base` below
`processed`, the snapshot has distinct ids, and each snapshot element names
a parent inside `base` (or the empty id).  By induction on the fuel. -/
theorem buildF_nodup (members : List FamilyMember)
    (hU : (members.map FamilyMember.id).Nodup)
    (hI : ∀ m ∈ members, ¬ m.id = "") : ∀ fuel : Nat,
    (∀ member processed node out,
      buildNodeF members fuel member processed = some (node, out) →
      processed.contains member.id = true →
      (node.emit.map FamilyMember.id).Nodup) ∧
    (∀ (cs : List FamilyMember) (base processed : List String)
      (nodes : List TreeNode) (out : List String),
      buildChildrenF members fuel cs processed = some (nodes, out) →
      (∀ c ∈ cs, c ∈ members) →
      (cs.map FamilyMember.id).Nodup →
      (∀ c ∈ cs, base.contains c.id = false) →
      (∀ x, base.contains x = true → processed.contains x = true) →
      (∀ c ∈ cs, ∀ q, c.parentId = some q → base.contains q = true ∨ q = "") →
      ((emitForest nodes).map FamilyMember.id).Nodup) := by
  intro fuel
  induction fuel with
  | zero =>
    constructor
    · intro member processed node out h
      simp [buildNodeF] at h
    · intro cs base processed nodes out h
      cases cs with
      | nil =>
        simp only [buildChildrenF, Option.some.injEq, Prod.mk.injEq] at h
        obtain ⟨h1, h2⟩ := h
        subst h1
        intros
        simp [emitForest_nil]
      | cons c rest => simp [buildChildrenF] at h
  | succ f ih =>
    have nodePart : ∀ member processed node out,
        buildNodeF members (f + 1) member processed = some (node, out) →
        processed.contains member.id = true →
        (node.emit.map FamilyMember.id).Nodup := by
      intro member processed node out h hpm
      simp only [buildNodeF] at h
      rcases hc : buildChildrenF members f (childSnapshot members member processed)
          processed with _ | ⟨children, out1⟩ <;> rw [hc] at h
      · cases h
      · simp only [Option.some.injEq, Prod.mk.injEq] at h
        obtain ⟨h1, h2⟩ := h
        subst h1; subst h2
        have cfF := (buildF_facts members f).2 _ _ _ _ hc
        have hsnapNodup : ((childSnapshot members member processed).map
            FamilyMember.id).Nodup :=
          List.Nodup.sublist ((List.filter_sublist members).map FamilyMember.id) hU
        have hdesc : ((emitForest children).map FamilyMember.id).Nodup := by
          refine ih.2 (childSnapshot members member processed) processed processed
            children out1 hc ?_ hsnapNodup ?_ (fun x hx => hx) ?_
          · exact fun c hcs => (mem_childSnapshot.mp hcs).1
          · exact fun c hcs => (mem_childSnapshot.mp hcs).2.2
          · intro c hcs q hq
            have h3 := (mem_childSnapshot.mp hcs).2.1
            rw [h3] at hq
            injection hq with hq2
            exact Or.inl (hq2 ▸ hpm)
        rw [emit_mk, List.map_cons]
        refine List.nodup_cons.mpr ⟨?_, hdesc⟩
        intro hmem
        obtain ⟨m2, hm2, hm2id⟩ := List.mem_map.mp hmem
        have hfresh : processed.contains m2.id = false := by
          rcases cfF.emitFresh m2 hm2 with h3 | h3
          · exact (mem_childSnapshot.mp h3).2.2
          · exact h3
        rw [hm2id] at hfresh
        rw [hpm] at hfresh
        cases hfresh
    have childrenPart : ∀ (cs : List FamilyMember) (base processed : List String)
        (nodes : List TreeNode) (out : List String),
        buildChildrenF members (f + 1) cs processed = some (nodes, out) →
        (∀ c ∈ cs, c ∈ members) →
        (cs.map FamilyMember.id).Nodup →
        (∀ c ∈ cs, base.contains c.id = false) →
        (∀ x, base.contains x = true → processed.contains x = true) →
        (∀ c ∈ cs, ∀ q, c.parentId = some q → base.contains q = true ∨ q = "") →
        ((emitForest nodes).map FamilyMember.id).Nodup := by
      intro cs base processed nodes out h hcsMem hcsNodup hcsBase hbaseSub hcsPar
      cases cs with
      | nil =>
        simp only [buildChildrenF, Option.some.injEq, Prod.mk.injEq] at h
        obtain ⟨h1, h2⟩ := h
        subst h1
        simp [emitForest_nil]
      | cons c rest =>
        simp only [buildChildrenF] at h
        rcases hn : buildNodeF members f c (addId processed c.id)
            with _ | ⟨node, out1⟩ <;> rw [hn] at h
        · cases h
        · dsimp only at h
          rcases hr : buildChildrenF members f rest out1
              with _ | ⟨nodes2, out2⟩ <;> rw [hr] at h
          · cases h
          · simp only [Option.some.injEq, Prod.mk.injEq] at h
            obtain ⟨h1, h2⟩ := h
            subst h1; subst h2
            have nfF := (buildF_facts members f).1 _ _ _ _ hn
            have cfF := (buildF_facts members f).2 _ _ _ _ hr
            rw [List.map_cons] at hcsNodup
            obtain ⟨hcNotIn, hrestIds⟩ := List.nodup_cons.mp hcsNodup
            have hcHead : base.contains c.id = false :=
              hcsBase c (List.mem_cons_self _ _)
            have hsub1 : ∀ x, base.contains x = true →
                (addId processed c.id).contains x = true :=
              fun x hx => addId_mono _ _ _ (hbaseSub x hx)
            have hnodeNodup : (node.emit.map FamilyMember.id).Nodup :=
              ih.1 c (addId processed c.id) node out1 hn (addId_contains_self _ _)
            have hrestNodup : ((emitForest nodes2).map FamilyMember.id).Nodup := by
              refine ih.2 rest base out1 nodes2 out2 hr
                (fun c2 hc2 => hcsMem c2 (List.mem_cons_of_mem _ hc2))
                hrestIds
                (fun c2 hc2 => hcsBase c2 (List.mem_cons_of_mem _ hc2))
                (fun x hx => nfF.mono x (hsub1 x hx))
                (fun c2 hc2 q hq => hcsPar c2 (List.mem_cons_of_mem _ hc2) q hq)
            have hnodeEmit : node.emit = c :: emitForest node.children := by
              rw [TreeNode.emit_eq, nfF.head]
            rw [emitForest_cons, List.map_append]
            refine List.Nodup.append hnodeNodup hrestNodup ?_
            intro x hx1 hx2
            obtain ⟨m2, hm2, hm2id⟩ := List.mem_map.mp hx2
            rcases cfF.emitFresh m2 hm2 with hm2rest | hm2fresh
            · -- m2 is a later head of the snapshot loop
              obtain ⟨m1, hm1, hm1id⟩ := List.mem_map.mp hx1
              rw [hnodeEmit] at hm1
              rcases List.mem_cons.mp hm1 with hm1c | hm1desc
              · -- x is the id of the current head c
                have : c.id ∈ rest.map FamilyMember.id :=
                  List.mem_map.mpr ⟨m2, hm2rest, by rw [hm2id, ← hm1id, hm1c]⟩
                exact hcNotIn this
              · -- x is the id of a descendant inside the subtree of c
                have hm1mem : m1 ∈ members := nfF.descMem m1 hm1desc
                have hm2mem : m2 ∈ members :=
                  hcsMem m2 (List.mem_cons_of_mem _ hm2rest)
                have heq : m1 = m2 :=
                  eq_of_id_eq hU hm1mem hm2mem (by rw [hm1id, hm2id])
                obtain ⟨q, hq1, hq2⟩ := nfF.descParent m1 hm1desc
                rcases hcsPar m2 (List.mem_cons_of_mem _ hm2rest) q
                    (by rw [← heq]; exact hq1) with hqb | hqe
                · -- the named parent is in the base set
                  rw [hnodeEmit, List.map_cons] at hq2
                  rcases List.mem_cons.mp hq2 with hqc | hqd
                  · rw [hqc] at hqb
                    rw [hcHead] at hqb
                    cases hqb
                  · obtain ⟨m3, hm3, hm3id⟩ := List.mem_map.mp hqd
                    have := nfF.descFresh m3 hm3
                    rw [hm3id] at this
                    rw [hsub1 q hqb] at this
                    cases this
                · -- the named parent is the empty id
                  subst hqe
                  rw [hnodeEmit, List.map_cons] at hq2
                  rcases List.mem_cons.mp hq2 with hqc | hqd
                  · exact hI c (hcsMem c (List.mem_cons_self _ _)) hqc.symm
                  · obtain ⟨m3, hm3, hm3id⟩ := List.mem_map.mp hqd
                    exact hI m3 (nfF.descMem m3 hm3) hm3id
            · -- m2 is fresh relative to out1, but x is already in out1
              have : out1.contains x = true := by
                refine nfF.emitIn ?_ x hx1
                exact addId_contains_self _ _
              rw [← hm2id] at this
              rw [hm2fresh] at this
              cases this
    exact ⟨nodePart, childrenPart⟩

/-! ### Termination: the fuel supplied by `buildTree` is sufficient -/

theorem unplaced_le {members : List FamilyMember} {s t : List String}
    (h : ∀ x, s.contains x = true → t.contains x = true) :
    unplaced members t ≤ unplaced members s := by
  apply Finset.card_le_card
  intro i hi
  rw [Finset.mem_filter] at hi ⊢
  refine ⟨hi.1, ?_⟩
  cases hc : s.contains i with
  | false => rfl
  | true => rw [h i hc] at hi; exact hi.2

theorem unplaced_succ_le {members : List FamilyMember} {base t : List String}
    {c : FamilyMember} (hc : c ∈ members) (hb : base.contains c.id = false)
    (hsub : ∀ x, base.contains x = true → t.contains x = true)
    (htc : t.contains c.id = true) :
    unplaced members t + 1 ≤ unplaced members base := by
  have hcid : c.id ∈ (members.map FamilyMember.id).toFinset :=
    List.mem_toFinset.mpr (List.mem_map.mpr ⟨c, hc, rfl⟩)
  have hmemB : c.id ∈ (members.map FamilyMember.id).toFinset.filter
      (fun i => base.contains i = false) :=
    Finset.mem_filter.mpr ⟨hcid, hb⟩
  have hsubset : (members.map FamilyMember.id).toFinset.filter
        (fun i => t.contains i = false) ⊆
      ((members.map FamilyMember.id).toFinset.filter
        (fun i => base.contains i = false)).erase c.id := by
    intro i hi
    rw [Finset.mem_filter] at hi
    rw [Finset.mem_erase, Finset.mem_filter]
    refine ⟨?_, hi.1, ?_⟩
    · intro heq
      rw [heq, htc] at hi
      exact Bool.true_eq_false.mp hi.2
    · cases hcb : base.contains i with
      | false => rfl
      | true => rw [hsub i hcb] at hi; exact hi.2
  have h1 := Finset.card_le_card hsubset
  rw [Finset.card_erase_of_mem hmemB] at h1
  have h2 : 1 ≤ ((members.map FamilyMember.id).toFinset.filter
      (fun i => base.contains i = false)).card :=
    Finset.card_pos.mpr ⟨c.id, hmemB⟩
  unfold unplaced
  omega

/-- The number of unplaced distinct ids is at most the collection length. -/
theorem unplaced_le_length (members : List FamilyMember) (s : List String) :
    unplaced members s ≤ members.length := by
  calc unplaced members s
      ≤ (members.map FamilyMember.id).toFinset.card :=
        Finset.card_le_card (Finset.filter_subset _ _)
    _ ≤ (members.map FamilyMember.id).length := List.toFinset_card_le _
    _ = members.length := List.length_map _ _

/-- Fuel sufficiency for the builder recursion, by induction on the fuel:
a node call succeeds whenever the fuel covers one step plus a full snapshot
pass for every remaining unplaced id, and a snapshot-loop call succeeds
whenever the fuel covers its list length plus the same allowance measured
from a base set below the threaded `processed` set. -/
theorem buildF_success (members : List FamilyMember) : ∀ fuel : Nat,
    (∀ (member : FamilyMember) (processed : List String),
      members.length + 1 + (members.length + 1) * unplaced members processed ≤ fuel →
      ∃ node out, buildNodeF members fuel member processed = some (node, out)) ∧
    (∀ (cs : List FamilyMember) (base processed : List String),
      (∀ c ∈ cs, c ∈ members) →
      (∀ c ∈ cs, base.contains c.id = false) →
      (∀ x, base.contains x = true → processed.contains x = true) →
      cs.length + (members.length + 1) * unplaced members base ≤ fuel →
      ∃ nodes out, buildChildrenF members fuel cs processed = some (nodes, out)) := by
  intro fuel
  induction fuel with
  | zero =>
    constructor
    · intro member processed hle
      exfalso
      omega
    · intro cs base processed _ _ _ hle
      cases cs with
      | nil => exact ⟨[], processed, rfl⟩
      | cons c rest => exfalso; simp at hle
  | succ f ih =>
    have nodePart : ∀ (member : FamilyMember) (processed : List String),
        members.length + 1 + (members.length + 1) * unplaced members processed ≤ f + 1 →
        ∃ node out, buildNodeF members (f + 1) member processed = some (node, out) := by
      intro member processed hle
      have hsnapLen : (childSnapshot members member processed).length ≤ members.length :=
        List.length_filter_le _ _
      have hbound : (childSnapshot members member processed).length +
          (members.length + 1) * unplaced members processed ≤ f := by
        have h3 : members.length + (members.length + 1) * unplaced members processed ≤ f := by
          omega
        omega
      obtain ⟨children, out1, hc⟩ :=
        ih.2 (childSnapshot members member processed) processed processed
          (fun c hcs => (mem_childSnapshot.mp hcs).1)
          (fun c hcs => (mem_childSnapshot.mp hcs).2.2)
          (fun x hx => hx) hbound
      exact ⟨TreeNode.mk member children (resolveSpouse members member), out1, by
        simp only [buildNodeF, hc]⟩
    have childrenPart : ∀ (cs : List FamilyMember) (base processed : List String),
        (∀ c ∈ cs, c ∈ members) →
        (∀ c ∈ cs, base.contains c.id = false) →
        (∀ x, base.contains x = true → processed.contains x = true) →
        cs.length + (members.length + 1) * unplaced members base ≤ f + 1 →
        ∃ nodes out, buildChildrenF members (f + 1) cs processed = some (nodes, out) := by
      intro cs base processed hcsMem hcsBase hbaseSub hle
      cases cs with
      | nil => exact ⟨[], processed, rfl⟩
      | cons c rest =>
        have hcMem : c ∈ members := hcsMem c (List.mem_cons_self _ _)
        have hcBase : base.contains c.id = false := hcsBase c (List.mem_cons_self _ _)
        have hsub1 : ∀ x, base.contains x = true →
            (addId processed c.id).contains x = true :=
          fun x hx => addId_mono _ _ _ (hbaseSub x hx)
        have hdrop : unplaced members (addId processed c.id) + 1 ≤
            unplaced members base :=
          unplaced_succ_le hcMem hcBase hsub1 (addId_contains_self _ _)
        have hnodeBound : members.length + 1 +
            (members.length + 1) * unplaced members (addId processed c.id) ≤ f := by
          have h4 : (members.length + 1) * (unplaced members (addId processed c.id) + 1) ≤
              (members.length + 1) * unplaced members base :=
            Nat.mul_le_mul_left _ hdrop
          have h5 : (members.length + 1) * (unplaced members (addId processed c.id) + 1) =
              members.length + 1 +
                (members.length + 1) * unplaced members (addId processed c.id) := by
            ring
          simp only [List.length_cons] at hle
          omega
        obtain ⟨node, out1, hn⟩ := ih.1 c (addId processed c.id) hnodeBound
        have nfF := (buildF_facts members f).1 _ _ _ _ hn
        have hrestBound : rest.length + (members.length + 1) * unplaced members base ≤ f := by
          simp only [List.length_cons] at hle
          omega
        obtain ⟨nodes2, out2, hr⟩ :=
          ih.2 rest base out1
            (fun c2 hc2 => hcsMem c2 (List.mem_cons_of_mem _ hc2))
            (fun c2 hc2 => hcsBase c2 (List.mem_cons_of_mem _ hc2))
            (fun x hx => nfF.mono x (hsub1 x hx))
            hrestBound
        refine ⟨node :: nodes2, out2, ?_⟩
        simp only [buildChildrenF, hn, hr]
    exact ⟨nodePart, childrenPart⟩

/-- C8: `buildTree` terminates on every finite collection — the fuel of
`(length + 1)^2` always suffices, so the builder returns a forest for every
input, including cyclic `parentId` chains and mutual parent references
(which are simply left unplaced, without any unbounded recursion). -/
theorem C8_buildTree_total (members : List FamilyMember) :
    ∃ ts, buildTree members = some ts := by
  have hrsLen : (rootSnapshot members).length ≤ members.length :=
    List.length_filter_le _ _
  have hun : unplaced members [] ≤ members.length := unplaced_le_length members []
  have hmul : (members.length + 1) * unplaced members [] ≤
      (members.length + 1) * members.length :=
    Nat.mul_le_mul_left _ hun
  have hbound : (rootSnapshot members).length +
      (members.length + 1) * unplaced members [] ≤
      (members.length + 1) * (members.length + 1) := by
    have h5 : (members.length + 1) * (members.length + 1) =
        (members.length + 1) * members.length + members.length + 1 := by ring
    omega
  obtain ⟨nodes, out, heq⟩ :=
    (buildF_success members ((members.length + 1) * (members.length + 1))).2
      (rootSnapshot members) [] []
      (fun c hcs => (mem_rootSnapshot.mp hcs).1)
      (fun c _ => rfl)
      (fun x hx => hx)
      hbound
  exact ⟨nodes, by simp [buildTree, heq]⟩

/-! ### Forest-level consequences -/

theorem truthy_false_iff (o : Option String) :
    truthy o = false ↔ o = none ∨ o = some "" := by
  cases o with
  | none => simp [truthy]
  | some s => simp [truthy]

/-- A successful `buildTree` run is a successful roots loop over the root
snapshot with the empty `processed` set. -/
theorem buildTree_eq {members : List FamilyMember} {ts : List TreeNode}
    (h : buildTree members = some ts) :
    ∃ out, buildChildrenF members ((members.length + 1) * (members.length + 1))
      (rootSnapshot members) [] = some (ts, out) := by
  unfold buildTree at h
  rcases hb : buildChildrenF members ((members.length + 1) * (members.length + 1))
      (rootSnapshot members) [] with _ | ⟨nodes, out⟩ <;> rw [hb] at h
  · cases h
  · simp only [Option.map_some', Option.some.injEq] at h
    subst h
    exact ⟨out, rfl⟩

theorem buildTree_facts {members : List FamilyMember} {ts : List TreeNode}
    (h : buildTree members = some ts) :
    ∃ out, ChildrenFacts members (rootSnapshot members) [] ts out := by
  obtain ⟨out, heq⟩ := buildTree_eq h
  exact ⟨out, (buildF_facts members _).2 _ _ _ _ heq⟩

/-- Every member of the collection with a falsy `parentId` is emitted (it is
in the roots snapshot, and the roots loop emits every snapshot element). -/
theorem root_mem_emit {members : List FamilyMember} {ts : List TreeNode}
    (h : buildTree members = some ts) {m : FamilyMember}
    (hm : m ∈ members) (hf : truthy m.parentId = false) : m ∈ emitForest ts := by
  obtain ⟨out, cf⟩ := buildTree_facts h
  have hrs : m ∈ rootSnapshot members := mem_rootSnapshot.mpr ⟨hm, hf⟩
  rw [← cf.heads] at hrs
  obtain ⟨nd, hnd, hndm⟩ := List.mem_map.mp hrs
  exact mem_emitForest_of_mem hnd (hndm ▸ member_mem_emit nd)

/-- Every emitted member belongs to the collection. -/
theorem emit_mem_members {members : List FamilyMember} {ts : List TreeNode}
    (h : buildTree members = some ts) {m2 : FamilyMember}
    (hm2 : m2 ∈ emitForest ts) : m2 ∈ members := by
  obtain ⟨out, cf⟩ := buildTree_facts h
  rcases cf.emitMem m2 hm2 with h3 | h3
  · exact (mem_rootSnapshot.mp h3).1
  · exact h3

/-- Every member whose `parentId` chain reaches a falsy-parent member within
the collection is emitted, by induction on the chain length. -/
theorem reach_emitted {members : List FamilyMember} {ts : List TreeNode}
    (hU : (members.map FamilyMember.id).Nodup)
    (hts : buildTree members = some ts) :
    ∀ (k : Nat) (m : FamilyMember), m ∈ members →
      reachesRootB members k m = true → m ∈ emitForest ts := by
  obtain ⟨out, cf⟩ := buildTree_facts hts
  intro k
  induction k with
  | zero => intro m _ hr; simp [reachesRootB] at hr
  | succ k ih =>
    intro m hm hr
    rw [reachesRootB] at hr
    cases hp : m.parentId with
    | none => exact root_mem_emit hts hm (by rw [(truthy_false_iff _).mpr (Or.inl hp)])
    | some p =>
      rw [hp] at hr
      dsimp only at hr
      by_cases hpe : p = ""
      · subst hpe
        exact root_mem_emit hts hm (by rw [(truthy_false_iff _).mpr (Or.inr hp)])
      · rw [if_neg hpe] at hr
        cases hf : members.find? (fun q => decide (q.id = p)) with
        | none => rw [hf] at hr; cases hr
        | some parent =>
          rw [hf] at hr
          have hparMem : parent ∈ members := List.mem_of_find?_eq_some hf
          have hparId : parent.id = p := by
            have := List.find?_some hf
            simpa using this
          have hparEmit : parent ∈ emitForest ts := ih parent hparMem hr
          have hcont : out.contains m.id = true :=
            cf.childComplete parent hparEmit m hm (by rw [hp, hparId])
          rcases cf.outBound m.id hcont with h3 | h3
          · cases h3
          · obtain ⟨me, hme, hmeid⟩ := List.mem_map.mp (by
              simpa [emitIds] using h3)
            have hmeMem : me ∈ members := emit_mem_members hts hme
            have : me = m := eq_of_id_eq hU hmeMem hm hmeid
            exact this ▸ hme

/-! ### General claims about the tree builder -/

/-- C2, amended: a member whose `parentId` is set to a nonempty id that
does not belong to any member of the collection is omitted from the forest
entirely — it appears neither as a root nor as a descendant.  (The claim
that such a member becomes a root is refuted by `C2_dangling_not_root`.) -/
theorem C2_dangling_omitted (members : List FamilyMember) (m : FamilyMember)
    (p : String) (ts : List TreeNode)
    (hpar : m.parentId = some p) (hne : ¬ p = "")
    (hdangling : ∀ q ∈ members, ¬ q.id = p)
    (hts : buildTree members = some ts) :
    m ∉ emitForest ts := by
  intro hmem
  obtain ⟨out, cf⟩ := buildTree_facts hts
  rcases cf.emitParent m hmem with hroot | ⟨q, hq1, hq2⟩
  · have h3 := (mem_rootSnapshot.mp hroot).2
    rw [truthy_false_iff] at h3
    rcases h3 with h4 | h4
    · rw [hpar] at h4; cases h4
    · rw [hpar] at h4
      injection h4 with h5
      exact hne h5
  · rw [hpar] at hq1
    injection hq1 with h5
    subst h5
    obtain ⟨me, hme, hmeid⟩ := List.mem_map.mp (by simpa [emitIds] using hq2)
    exact hdangling me (emit_mem_members hts hme) hmeid

/-- C2, witness: in the pair collection (root R, dangling A), the member
with the dangling `parentId` is absent from the built forest. -/
theorem C2_dangling_omitted_witness :
    ({ id := "A", parentId := some "Z" } : FamilyMember) ∉
      emitForest [TreeNode.mk { id := "R" } [] none] :=
  C2_dangling_omitted danglingPairMembers
    { id := "A", parentId := some "Z" } "Z"
    [TreeNode.mk { id := "R" } [] none]
    rfl (by decide) (by decide) rfl

/-- C1, amended: for a collection with pairwise-distinct nonempty ids in
which the `parentId` chain of every member reaches a member with a falsy
`parentId` inside the collection (so no member sits on a cyclic or dangling
ancestor chain), the members emitted by `buildTree` in primary positions
are a permutation of the collection: every member appears exactly once, no
duplicates and no omissions.  (Without the chain condition the claim fails:
`C1_cycle_drops_members`.) -/
theorem C1_unique_placement (members : List FamilyMember) (ts : List TreeNode)
    (hU : (members.map FamilyMember.id).Nodup)
    (hI : ∀ m ∈ members, ¬ m.id = "")
    (hReach : ∀ m ∈ members, reachesRootB members (members.length + 1) m = true)
    (hts : buildTree members = some ts) :
    (emitForest ts).Perm members := by
  obtain ⟨out, heq⟩ := buildTree_eq hts
  have hNodupIds : ((emitForest ts).map FamilyMember.id).Nodup := by
    refine (buildF_nodup members hU hI _).2 (rootSnapshot members) [] [] ts out heq
      (fun c hcs => (mem_rootSnapshot.mp hcs).1)
      (List.Nodup.sublist ((List.filter_sublist members).map FamilyMember.id) hU)
      (fun c _ => rfl)
      (fun x hx => by cases hx)
      ?_
    intro c hcs q hq
    have h3 := (mem_rootSnapshot.mp hcs).2
    rw [truthy_false_iff] at h3
    rcases h3 with h4 | h4
    · rw [hq] at h4; cases h4
    · rw [hq] at h4
      injection h4 with h5
      exact Or.inr h5
  have hemitNodup : (emitForest ts).Nodup := List.Nodup.of_map _ hNodupIds
  have hmembersNodup : members.Nodup := List.Nodup.of_map _ hU
  refine List.perm_of_nodup_nodup_toFinset_eq hemitNodup hmembersNodup ?_
  ext m
  rw [List.mem_toFinset, List.mem_toFinset]
  constructor
  · exact fun hm => emit_mem_members hts hm
  · exact fun hm => reach_emitted hU hts (members.length + 1) m hm (hReach m hm)

/-- C1, witness: on the two-member collection (root A, child B) the emitted
members of the forest are a permutation of the collection. -/
theorem C1_unique_placement_witness :
    (emitForest [TreeNode.mk { id := "A" }
        [TreeNode.mk { id := "B", parentId := some "A" } [] none] none]).Perm
      smallTreeMembers :=
  C1_unique_placement smallTreeMembers
    [TreeNode.mk { id := "A" }
      [TreeNode.mk { id := "B", parentId := some "A" } [] none] none]
    (by decide) (by decide) (by decide) rfl

end FamilyTree
